import Mathlib

set_option maxRecDepth 100000

/-!
Verification of the raw directory-stream reader from
`src/imp/linux_raw/fs/dir.rs` (`Dir`, `DirEntry`).

The embedding models the buffer as a `List Nat` of bytes, the `Dir`
struct as `DirSt`, and the two kernel entry points (`getdents`,
`_seek`) as an abstract oracle `KernelModel σ`.  Every kernel call the
stream issues is recorded as a `KEvent`; every buffer byte offset the
decoder touches is recorded in a `reads` list; Rust panics
(`assert!`, `unwrap`, out-of-bounds indexing/slicing) are modelled by
the `ReadResult.panic` outcome.

Machine integers are modelled as `Nat`: `u16::from_ne_bytes` /
`u64::from_ne_bytes` become byte-wise little-endian assembly (the
native order of the modelled target); `usize` subtraction appears only
under the invariant `pos ≤ buf.length`, where Rust's `usize`
subtraction and `Nat` truncated subtraction agree.
-/

/-- `l[i]` as an Option: `none` models a Rust out-of-bounds index panic. -/
def byteAt (l : List Nat) (i : Nat) : Option Nat := l[i]?

/-- `Vec::resize(n, 0)`: truncate or zero-pad to length `n`. -/
def resizeZero (l : List Nat) (n : Nat) : List Nat :=
  l.take n ++ List.replicate (n - l.length) 0

/-- `.iter().position(|x| *x == b'\0')`: index of the first NUL byte. -/
def firstNul : List Nat → Option Nat
  | [] => Option.none
  | b :: bs => if b = 0 then some 0 else (firstNul bs).map (· + 1)

/-- Little-endian decomposition of `n` into `k` bytes. -/
def leToBytes : Nat → Nat → List Nat
  | 0, _ => []
  | k + 1, n => n % 256 :: leToBytes k (n / 256)

/-- Little-endian byte assembly: models `uNN::from_ne_bytes`. -/
def leFromBytes : List Nat → Nat
  | [] => 0
  | b :: bs => b + 256 * leFromBytes bs

/-- `u16::from_ne_bytes([b0, b1])` (native order = little-endian). -/
def u16FromNeBytes (b0 b1 : Nat) : Nat := leFromBytes [b0, b1]

/-- `CStr::from_bytes_with_nul`: succeeds iff the first NUL is the
last byte; returns the bytes without the terminator. -/
def cstrFromBytesWithNul (l : List Nat) : Option (List Nat) :=
  match firstNul l with
  | some k => if k + 1 = l.length then some (l.take k) else Option.none
  | Option.none => Option.none

/-- The buffer offsets examined by a scan that reads `k + 1` bytes
starting at `start` (a NUL search that stops at relative index `k`). -/
def scanOffsets (start k : Nat) : List Nat :=
  (List.range (k + 1)).map (start + ·)

/-! ### `linux_dirent64` layout

Field offsets of the kernel record ABI (spec §6); in the source they
are computed from a zeroed `linux_dirent64` value at run time. -/

def offsetof_d_ino : Nat := 0
def offsetof_d_reclen : Nat := 16
def offsetof_d_type : Nat := 18
def offsetof_d_name : Nat := 19
/-- `size_of::<linux_dirent64>()`: 19 bytes of fixed header, padded to
the 8-byte alignment of the struct. -/
def sizeof_linux_dirent64 : Nat := 24

/-! ### Data model -/

/-- Decoded `DirEntry`: inode, `d_type` byte, and the logical name
bytes (the `CString`'s contents, without the NUL terminator). -/
structure DirEntry where
  d_ino : Nat
  d_type : Nat
  name : List Nat
deriving DecidableEq, Repr

/-- The `Dir` struct: buffer bytes, cursor `pos`, pending seek target
`next`, plus `cap` modelling `buf.capacity()` (the minimal capacity
`Vec` guarantees: the length of the last `resize`; `Vec` may
over-allocate, but no property proved here depends on the exact
value). -/
structure DirSt where
  buf : List Nat
  pos : Nat
  cap : Nat
  next : Option Nat
deriving DecidableEq, Repr

/-- Outcome of one `read()` call. `panic` models a Rust process abort
(failed `assert!`, `unwrap` of `None`, or out-of-bounds index/slice). -/
inductive ReadResult where
  | none
  | err (e : Nat)
  | ok (e : DirEntry)
  | panic
deriving DecidableEq, Repr

deriving instance DecidableEq for Except

/-- One kernel call issued by the stream, with its result:
`seek target result` or `fill capacity result` (`result` of a fill is
the byte count written, `nread`). -/
inductive KEvent where
  | seek (target : Nat) (result : Except Nat Unit)
  | fill (capacity : Nat) (result : Except Nat Nat)
deriving DecidableEq, Repr

/-- Abstract kernel oracle with internal state `σ`:
`seek s target` models `_seek(fd, target, SEEK_SET)` and
`getdents s capacity` models `getdents(fd, &mut buf)` returning the
bytes written into the buffer prefix. -/
structure KernelModel (σ : Type) where
  seek : σ → Nat → Except Nat σ
  getdents : σ → Nat → Except Nat (List Nat × σ)

/-- Output of the record decoder: result, successor stream state, the
buffer byte offsets read (in source order), and the bytes consumed
(the declared record length when an entry is decoded, else 0 — a
panicking decode step aborts the process and decodes no record). -/
structure DecodeOut where
  res : ReadResult
  st : DirSt
  reads : List Nat
  consumed : Nat
deriving DecidableEq, Repr

/-- Output of one `read()` call: result, successor stream state,
successor kernel state, kernel events issued, decoder byte reads, and
bytes consumed. -/
structure ReadOut (σ : Type) where
  res : ReadResult
  st : DirSt
  ks : σ
  events : List KEvent
  reads : List Nat
  consumed : Nat

/-! ### Operations -/

/-- `Dir::_from`: fresh stream over an adopted descriptor:
`buf: Vec::new()` (empty, capacity 0), `pos: 0`, `next: None`. -/
def dirInit : DirSt := ⟨[], 0, 0, Option.none⟩

/-- `Dir::rewind`: `pos = buf.len(); next = Some(0)`. -/
def rewind (d : DirSt) : DirSt :=
  { d with pos := d.buf.length, next := some 0 }

/-- The record decoder: the body of `Dir::read` once at least one
record is assumed buffered (source lines 86–137), including the
unaligned `d_reclen` load, the `assert!` on the declared length, the
cursor advance, the NUL scan with `unwrap`, the
`CStr::from_bytes_with_nul` re-validation, the name-length `assert!`,
and the unaligned `d_ino` / `d_type` loads. -/
def decodeStep (d : DirSt) : DecodeOut :=
  let pos := d.pos
  -- Do an unaligned u16 load of d_reclen.
  match byteAt d.buf (pos + offsetof_d_reclen),
        byteAt d.buf (pos + offsetof_d_reclen + 1) with
  | some r0, some r1 =>
    let reads0 := [pos + offsetof_d_reclen, pos + offsetof_d_reclen + 1]
    let d_reclen := u16FromNeBytes r0 r1
    -- assert!(self.buf.len() - pos >= d_reclen as usize)
    if d.buf.length - pos ≥ d_reclen then
      -- self.pos += d_reclen as usize
      let d1 := { d with pos := pos + d_reclen }
      let name_start := pos + offsetof_d_name
      -- `&self.buf[name_start..]` panics when name_start > buf.len().
      if name_start ≤ d.buf.length then
        match firstNul (d.buf.drop name_start) with
        | some name_len =>
          -- Second pass over the same bytes: CStr::from_bytes_with_nul.
          match cstrFromBytesWithNul ((d.buf.drop name_start).take (name_len + 1)) with
          | some name =>
            -- assert!(name.as_bytes().len() <= self.buf.len() - name_start)
            if name.length ≤ d.buf.length - name_start then
              -- Do an unaligned u64 load of d_ino.
              match byteAt d.buf (pos + offsetof_d_ino),
                    byteAt d.buf (pos + offsetof_d_ino + 1),
                    byteAt d.buf (pos + offsetof_d_ino + 2),
                    byteAt d.buf (pos + offsetof_d_ino + 3),
                    byteAt d.buf (pos + offsetof_d_ino + 4),
                    byteAt d.buf (pos + offsetof_d_ino + 5),
                    byteAt d.buf (pos + offsetof_d_ino + 6),
                    byteAt d.buf (pos + offsetof_d_ino + 7) with
              | some b0, some b1, some b2, some b3,
                some b4, some b5, some b6, some b7 =>
                let d_ino := leFromBytes [b0, b1, b2, b3, b4, b5, b6, b7]
                match byteAt d.buf (pos + offsetof_d_type) with
                | some d_type =>
                  ⟨.ok ⟨d_ino, d_type, name⟩, d1,
                   reads0 ++ scanOffsets name_start name_len
                          ++ scanOffsets name_start name_len
                          ++ scanOffsets (pos + offsetof_d_ino) 7
                          ++ [pos + offsetof_d_type],
                   d_reclen⟩
                | Option.none =>
                  -- unreachable: index pos+18 in bounds once pos+17 is
                  ⟨.panic, d1,
                   reads0 ++ scanOffsets name_start name_len
                          ++ scanOffsets name_start name_len
                          ++ scanOffsets (pos + offsetof_d_ino) 7, 0⟩
              | _, _, _, _, _, _, _, _ =>
                -- unreachable: indices pos..pos+7 in bounds once pos+17 is
                ⟨.panic, d1,
                 reads0 ++ scanOffsets name_start name_len
                        ++ scanOffsets name_start name_len, 0⟩
            else
              -- assert! failure: process abort
              ⟨.panic, d1,
               reads0 ++ scanOffsets name_start name_len
                      ++ scanOffsets name_start name_len, 0⟩
          | Option.none =>
            -- CStr::from_bytes_with_nul(..).unwrap() panic
            ⟨.panic, d1,
             reads0 ++ scanOffsets name_start name_len
                    ++ scanOffsets name_start name_len, 0⟩
        | Option.none =>
          -- .position(..).unwrap() panic: no NUL from name_start to
          -- the end of the buffer; the scan read that whole region.
          ⟨.panic, d1,
           reads0 ++ (List.range (d.buf.length - name_start)).map (name_start + ·), 0⟩
      else
        -- slice index panic in &self.buf[name_start..]
        ⟨.panic, d1, reads0, 0⟩
    else
      -- assert! failure: fatal, before the cursor advance
      ⟨.panic, d, reads0, 0⟩
  | _, _ =>
    -- index out of bounds reading the d_reclen bytes
    ⟨.panic, d, [pos + offsetof_d_reclen, pos + offsetof_d_reclen + 1], 0⟩

/-- `Dir::read_more`: grow the buffer to `capacity + 32 * size_of`,
reset the cursor, issue `getdents`, truncate to the bytes written.
Returns `(Option (Except errno Unit), state, kernel state, events)`
mirroring the Rust `Option<io::Result<()>>`. -/
def read_more {σ : Type} (K : KernelModel σ) (s : σ) (d : DirSt) :
    Option (Except Nat Unit) × DirSt × σ × List KEvent :=
  let newLen := d.cap + 32 * sizeof_linux_dirent64
  let d1 : DirSt := { d with buf := resizeZero d.buf newLen, pos := 0, cap := newLen }
  match K.getdents s newLen with
  | .error e => (some (.error e), d1, s, [.fill newLen (.error e)])
  | .ok (bytes, s1) =>
    -- the kernel wrote `bytes` into the buffer prefix; resize(nread, 0)
    -- truncates to exactly those bytes
    let nread := bytes.length
    let d2 : DirSt := { d1 with buf := resizeZero (bytes ++ d1.buf.drop nread) nread }
    if nread = 0 then (Option.none, d2, s1, [.fill newLen (.ok nread)])
    else (some (.ok ()), d2, s1, [.fill newLen (.ok nread)])

/-- The refill-then-decode tail of `Dir::read` (source lines 78–137),
entered after the pending-seek check; `evs` carries the events already
issued by that check. -/
def readBody {σ : Type} (K : KernelModel σ) (s : σ) (d : DirSt)
    (evs : List KEvent) : ReadOut σ :=
  if d.buf.length - d.pos < sizeof_linux_dirent64 then
    match read_more K s d with
    | (Option.none, d1, s1, evs1) => ⟨.none, d1, s1, evs ++ evs1, [], 0⟩
    | (some (.error e), d1, s1, evs1) => ⟨.err e, d1, s1, evs ++ evs1, [], 0⟩
    | (some (.ok _), d1, s1, evs1) =>
      let dc := decodeStep d1
      ⟨dc.res, dc.st, s1, evs ++ evs1, dc.reads, dc.consumed⟩
  else
    let dc := decodeStep d
    ⟨dc.res, dc.st, s, evs, dc.reads, dc.consumed⟩

/-- `Dir::read`: take the pending seek (clearing it before the kernel
call), issue it, bail out on seek failure, otherwise refill if fewer
than `size_of::<linux_dirent64>()` unconsumed bytes remain and decode
one record. -/
def Dir.read {σ : Type} (K : KernelModel σ) (s : σ) (d : DirSt) : ReadOut σ :=
  match d.next with
  | some nxt =>
    -- self.next.take()
    let d0 := { d with next := Option.none }
    match K.seek s nxt with
    | .error e => ⟨.err e, d0, s, [.seek nxt (.error e)], [], 0⟩
    | .ok s1 => readBody K s1 d0 [.seek nxt (.ok ())]
  | Option.none => readBody K s d []

/-- The `d_reclen` value declared by the record starting at `pos`
(reading out-of-range bytes as 0, for use in theorem statements; the
decoder itself panics on out-of-range reads). -/
def reclenAt (buf : List Nat) (pos : Nat) : Nat :=
  u16FromNeBytes (buf.getD (pos + offsetof_d_reclen) 0)
                 (buf.getD (pos + offsetof_d_reclen + 1) 0)

/-! ### Iterated calls -/

/-- Cumulative output of a sequence of `read()` calls. -/
structure RunOut (σ : Type) where
  results : List ReadResult
  st : DirSt
  ks : σ
  events : List KEvent
  consumed : Nat

/-- Issue `fuel` consecutive `read()` calls, accumulating results,
kernel events, and consumed bytes. (A panicking call aborts the real
process; continuing past it here only ever weakens the inequalities
proved about runs.) -/
def runReads {σ : Type} (K : KernelModel σ) :
    Nat → σ → DirSt → RunOut σ
  | 0, s, d => ⟨[], d, s, [], 0⟩
  | fuel + 1, s, d =>
    let o := Dir.read K s d
    let r := runReads K fuel o.ks o.st
    ⟨o.res :: r.results, r.st, r.ks, o.events ++ r.events, o.consumed + r.consumed⟩

/-- Total bytes ever supplied by successful kernel fill calls. -/
def suppliedOf : List KEvent → Nat
  | [] => 0
  | KEvent.fill _ (.ok n) :: es => n + suppliedOf es
  | _ :: es => suppliedOf es

/-- Whether an event is a failed kernel fill call. -/
def isFillErr : KEvent → Bool
  | KEvent.fill _ (.error _) => true
  | _ => false

/-- Whether an event is a kernel seek call. -/
def isSeekEvent : KEvent → Bool
  | KEvent.seek _ _ => true
  | _ => false

/-- Call `read()` repeatedly, collecting decoded entries, until it
returns `None` (`true` = completed), an error, a panic, or fuel runs
out (`false`). -/
def drain {σ : Type} (K : KernelModel σ) :
    Nat → σ → DirSt → List DirEntry × Bool × σ × DirSt
  | 0, s, d => ([], false, s, d)
  | fuel + 1, s, d =>
    let o := Dir.read K s d
    match o.res with
    | .none => ([], true, o.ks, o.st)
    | .ok e =>
      let (es, c, s1, d1) := drain K fuel o.ks o.st
      (e :: es, c, s1, d1)
    | .err _ => ([], false, o.ks, o.st)
    | .panic => ([], false, o.ks, o.st)

/-! ### A deterministic directory kernel

`kernel_fill_buffer` and `kernel_seek` are external collaborators
(spec §6); the repository's syscall stubs are not under `src/`.
Modelled from the spec: a fixed directory holds a list of records;
`getdents` returns the encoding of the next record when it fits in the
supplied capacity, `seek 0` restarts the enumeration (the stream only
ever seeks to 0, from `rewind`). -/

/-- One directory record held by the kernel. -/
structure Rec where
  ino : Nat
  typ : Nat
  name : List Nat
deriving DecidableEq, Repr

/-- Declared record length: 19-byte header + name + NUL, padded to a
multiple of 8 as the kernel does. -/
def recLen (r : Rec) : Nat := (19 + r.name.length + 1 + 7) / 8 * 8

/-- Wire encoding of a record per the `linux_dirent64` layout:
`d_ino`, `d_off` (0), `d_reclen`, `d_type`, NUL-terminated name,
zero padding up to `recLen`. -/
def encodeRec (r : Rec) : List Nat :=
  leToBytes 8 r.ino ++ leToBytes 8 0 ++ leToBytes 2 (recLen r) ++
    [r.typ] ++ r.name ++ [0] ++ List.replicate (recLen r - (20 + r.name.length)) 0

/-- The `DirEntry` a record should decode to. -/
def toEntry (r : Rec) : DirEntry := ⟨r.ino, r.typ, r.name⟩

/-- A record the kernel can legally emit: byte-sized fields, NUL-free
name, and a record that fits in every capacity the stream offers. -/
def WFRec (r : Rec) : Prop :=
  r.ino < 2 ^ 64 ∧ r.typ < 256 ∧ (∀ b ∈ r.name, 0 < b ∧ b < 256) ∧
    recLen r ≤ 32 * sizeof_linux_dirent64

instance (r : Rec) : Decidable (WFRec r) := by
  unfold WFRec
  infer_instance

/-- Deterministic kernel over a fixed record list `L`; its state is
the list of records not yet returned. -/
def dirKernel (L : List Rec) : KernelModel (List Rec) where
  seek _ target := .ok (L.drop target)
  getdents s cap :=
    match s with
    | [] => .ok ([], [])
    | r :: rs => if recLen r ≤ cap then .ok (encodeRec r, rs) else .error 22

/-- Kernel used by the C3 counterexample: the first fill supplies one
24-byte record, every later fill fails with errno 5. -/
def c3Kernel : KernelModel Nat where
  seek s _ := .ok s
  getdents s _ :=
    match s with
    | 0 => .ok (encodeRec ⟨1, 4, [97]⟩, 1)
    | _ => .error 5

/-! ### Helper lemmas -/

theorem byteAt_of_lt {l : List Nat} {i : Nat} (h : i < l.length) :
    byteAt l i = some (l.getD i 0) := by
  simp [byteAt, List.getElem?_eq_getElem h, List.getD_eq_getElem l 0 h]

theorem byteAt_some_getD {l : List Nat} {i b : Nat} (h : byteAt l i = some b) :
    l.getD i 0 = b := by
  have hi : i < l.length := by
    by_contra hi
    simp [byteAt, List.getElem?_eq_none (Nat.le_of_not_lt hi)] at h
  rw [byteAt_of_lt hi] at h
  exact Option.some.inj h

theorem firstNul_lt_length : ∀ {l : List Nat} {k : Nat},
    firstNul l = some k → k < l.length := by
  intro l
  induction l with
  | nil => intro k h; simp [firstNul] at h
  | cons b bs ih =>
    intro k h
    simp only [firstNul] at h
    by_cases hb : b = 0
    · rw [if_pos hb] at h
      cases h
      simp
    · rw [if_neg hb] at h
      cases hfn : firstNul bs with
      | none => rw [hfn] at h; simp at h
      | some k1 =>
        rw [hfn] at h
        simp at h
        have := ih hfn
        simp [List.length_cons]
        omega

theorem firstNul_getD_eq_zero : ∀ {l : List Nat} {k : Nat},
    firstNul l = some k → l.getD k 0 = 0 := by
  intro l
  induction l with
  | nil => intro k h; simp [firstNul] at h
  | cons b bs ih =>
    intro k h
    simp only [firstNul] at h
    by_cases hb : b = 0
    · rw [if_pos hb] at h; cases h; simpa using hb
    · rw [if_neg hb] at h
      cases hfn : firstNul bs with
      | none => rw [hfn] at h; simp at h
      | some k1 =>
        rw [hfn] at h
        simp at h
        subst h
        simpa using ih hfn

theorem firstNul_getD_ne_zero : ∀ {l : List Nat} {k : Nat},
    firstNul l = some k → ∀ j, j < k → l.getD j 0 ≠ 0 := by
  intro l
  induction l with
  | nil => intro k h; simp [firstNul] at h
  | cons b bs ih =>
    intro k h j hj
    simp only [firstNul] at h
    by_cases hb : b = 0
    · rw [if_pos hb] at h; cases h; omega
    · rw [if_neg hb] at h
      cases hfn : firstNul bs with
      | none => rw [hfn] at h; simp at h
      | some k1 =>
        rw [hfn] at h
        simp at h
        subst h
        cases j with
        | zero => simpa using hb
        | succ j1 => simpa using ih hfn j1 (by omega)

theorem firstNul_take {l : List Nat} {k : Nat} (h : firstNul l = some k) :
    ∀ {n : Nat}, k < n → firstNul (l.take n) = some k := by
  induction l generalizing k with
  | nil => simp [firstNul] at h
  | cons b bs ih =>
    intro n hn
    simp only [firstNul] at h
    cases n with
    | zero => omega
    | succ n1 =>
      by_cases hb : b = 0
      · rw [if_pos hb] at h; cases h
        simp [List.take, firstNul, hb]
      · rw [if_neg hb] at h
        cases hfn : firstNul bs with
        | none => rw [hfn] at h; simp at h
        | some k1 =>
          rw [hfn] at h
          simp at h
          subst h
          simp only [List.take, firstNul, if_neg hb]
          rw [ih hfn (by omega)]
          rfl

theorem firstNul_append {l rest : List Nat} (h : ∀ b ∈ l, b ≠ 0) :
    firstNul (l ++ 0 :: rest) = some l.length := by
  induction l with
  | nil => simp [firstNul]
  | cons b bs ih =>
    have hb : b ≠ 0 := h b (by simp)
    simp only [List.cons_append, firstNul, if_neg hb, List.append_eq]
    rw [ih (fun x hx => h x (by simp [hx]))]
    rfl

theorem cstr_of_firstNul {l : List Nat} {k : Nat} (h : firstNul l = some k) :
    cstrFromBytesWithNul (l.take (k + 1)) = some (l.take k) := by
  have hk := firstNul_lt_length h
  have htk : firstNul (l.take (k + 1)) = some k := firstNul_take h (by omega)
  simp only [cstrFromBytesWithNul, htk]
  rw [if_pos (by simp [List.length_take]; omega)]
  rw [List.take_take]
  simp [Nat.min_def]

theorem leToBytes_length : ∀ (k n : Nat), (leToBytes k n).length = k := by
  intro k
  induction k with
  | zero => intro n; rfl
  | succ k1 ih => intro n; simp [leToBytes, ih]

theorem leFromBytes_leToBytes : ∀ (k n : Nat),
    leFromBytes (leToBytes k n) = n % 256 ^ k := by
  intro k
  induction k with
  | zero => intro n; simp [leToBytes, leFromBytes, Nat.mod_one]
  | succ k1 ih =>
    intro n
    simp only [leToBytes, leFromBytes, ih]
    rw [pow_succ, mul_comm (256 ^ k1) 256, Nat.mod_mul]

theorem resizeZero_trunc (bytes rest : List Nat) :
    resizeZero (bytes ++ rest) bytes.length = bytes := by
  simp [resizeZero, List.take_left]

/-! ### Decoder characterisation -/

/-- The inode value assembled by the decoder's unaligned u64 load. -/
def inoAt (buf : List Nat) (pos : Nat) : Nat :=
  leFromBytes [buf.getD (pos + offsetof_d_ino) 0,
               buf.getD (pos + offsetof_d_ino + 1) 0,
               buf.getD (pos + offsetof_d_ino + 2) 0,
               buf.getD (pos + offsetof_d_ino + 3) 0,
               buf.getD (pos + offsetof_d_ino + 4) 0,
               buf.getD (pos + offsetof_d_ino + 5) 0,
               buf.getD (pos + offsetof_d_ino + 6) 0,
               buf.getD (pos + offsetof_d_ino + 7) 0]

/-- The `d_type` byte of the record starting at `pos`. -/
def typeAt (buf : List Nat) (pos : Nat) : Nat :=
  buf.getD (pos + offsetof_d_type) 0

/-- The name bytes (NUL at relative index `k` excluded). -/
def nameAt (buf : List Nat) (pos k : Nat) : List Nat :=
  (buf.drop (pos + offsetof_d_name)).take k

/-- Buffer offsets a fully successful decode reads, in source order:
`d_reclen`, NUL scan, `CStr` re-validation, `d_ino`, `d_type`. -/
def readsOk (pos k : Nat) : List Nat :=
  [pos + offsetof_d_reclen, pos + offsetof_d_reclen + 1] ++
    scanOffsets (pos + offsetof_d_name) k ++
    scanOffsets (pos + offsetof_d_name) k ++
    scanOffsets (pos + offsetof_d_ino) 7 ++
    [pos + offsetof_d_type]

theorem decode_success_eq (d : DirSt) (k : Nat)
    (hk : firstNul (d.buf.drop (d.pos + offsetof_d_name)) = some k)
    (hassert : reclenAt d.buf d.pos ≤ d.buf.length - d.pos) :
    decodeStep d =
      ⟨.ok ⟨inoAt d.buf d.pos, typeAt d.buf d.pos, nameAt d.buf d.pos k⟩,
       { d with pos := d.pos + reclenAt d.buf d.pos },
       readsOk d.pos k,
       reclenAt d.buf d.pos⟩ := by
  have hdl := firstNul_lt_length hk
  rw [List.length_drop] at hdl
  have hlen : d.pos + offsetof_d_name + k < d.buf.length := by
    simp [offsetof_d_name] at hdl ⊢; omega
  have h16 : d.pos + offsetof_d_reclen < d.buf.length := by
    simp [offsetof_d_reclen, offsetof_d_name] at hlen ⊢; omega
  have h17 : d.pos + offsetof_d_reclen + 1 < d.buf.length := by
    simp [offsetof_d_reclen, offsetof_d_name] at hlen ⊢; omega
  have hns : d.pos + offsetof_d_name ≤ d.buf.length := by omega
  have hA : u16FromNeBytes (d.buf.getD (d.pos + offsetof_d_reclen) 0)
      (d.buf.getD (d.pos + offsetof_d_reclen + 1) 0) ≤ d.buf.length - d.pos := by
    simpa [reclenAt] using hassert
  have hnl : ((d.buf.drop (d.pos + offsetof_d_name)).take k).length ≤
      d.buf.length - (d.pos + offsetof_d_name) := by
    simp [List.length_take, List.length_drop]
  have hi0 : d.pos + offsetof_d_ino < d.buf.length := by
    simp [offsetof_d_ino, offsetof_d_name] at hlen ⊢; omega
  have hi1 : d.pos + offsetof_d_ino + 1 < d.buf.length := by
    simp [offsetof_d_ino, offsetof_d_name] at hlen ⊢; omega
  have hi2 : d.pos + offsetof_d_ino + 2 < d.buf.length := by
    simp [offsetof_d_ino, offsetof_d_name] at hlen ⊢; omega
  have hi3 : d.pos + offsetof_d_ino + 3 < d.buf.length := by
    simp [offsetof_d_ino, offsetof_d_name] at hlen ⊢; omega
  have hi4 : d.pos + offsetof_d_ino + 4 < d.buf.length := by
    simp [offsetof_d_ino, offsetof_d_name] at hlen ⊢; omega
  have hi5 : d.pos + offsetof_d_ino + 5 < d.buf.length := by
    simp [offsetof_d_ino, offsetof_d_name] at hlen ⊢; omega
  have hi6 : d.pos + offsetof_d_ino + 6 < d.buf.length := by
    simp [offsetof_d_ino, offsetof_d_name] at hlen ⊢; omega
  have hi7 : d.pos + offsetof_d_ino + 7 < d.buf.length := by
    simp [offsetof_d_ino, offsetof_d_name] at hlen ⊢; omega
  have ht : d.pos + offsetof_d_type < d.buf.length := by
    simp [offsetof_d_type, offsetof_d_name] at hlen ⊢; omega
  simp only [decodeStep, byteAt_of_lt h16, byteAt_of_lt h17, byteAt_of_lt hi0,
    byteAt_of_lt hi1, byteAt_of_lt hi2, byteAt_of_lt hi3, byteAt_of_lt hi4,
    byteAt_of_lt hi5, byteAt_of_lt hi6, byteAt_of_lt hi7, byteAt_of_lt ht,
    hk, cstr_of_firstNul hk, hA, hns, hnl, ge_iff_le, if_true,
    reclenAt, inoAt, typeAt, nameAt, readsOk]

theorem decode_assert_panic (d : DirSt)
    (h17 : d.pos + offsetof_d_reclen + 1 < d.buf.length)
    (hfail : d.buf.length - d.pos < reclenAt d.buf d.pos) :
    decodeStep d =
      ⟨.panic, d, [d.pos + offsetof_d_reclen, d.pos + offsetof_d_reclen + 1], 0⟩ := by
  have h16 : d.pos + offsetof_d_reclen < d.buf.length := by omega
  have hB : ¬ (u16FromNeBytes (d.buf.getD (d.pos + offsetof_d_reclen) 0)
      (d.buf.getD (d.pos + offsetof_d_reclen + 1) 0) ≤ d.buf.length - d.pos) := by
    simp only [reclenAt] at hfail; omega
  simp only [decodeStep, byteAt_of_lt h16, byteAt_of_lt h17, ge_iff_le, hB,
    if_false]

theorem decode_shape (d : DirSt) :
    (decodeStep d).st.buf = d.buf ∧ (decodeStep d).st.cap = d.cap ∧
    (decodeStep d).st.next = d.next ∧
    ((decodeStep d).st.pos = d.pos ∧ (decodeStep d).consumed = 0 ∨
     ((decodeStep d).st.pos = d.pos + reclenAt d.buf d.pos ∧
      reclenAt d.buf d.pos ≤ d.buf.length - d.pos ∧
      (decodeStep d).consumed ≤ reclenAt d.buf d.pos)) := by
  rcases hE : decodeStep d with ⟨res, st, reads, consumed⟩
  simp only [hE]
  simp only [decodeStep] at hE
  split at hE
  case h_1 r0 r1 heq0 heq1 =>
    have hr : reclenAt d.buf d.pos = u16FromNeBytes r0 r1 := by
      rw [reclenAt, byteAt_some_getD heq0, byteAt_some_getD heq1]
    split at hE
    case isTrue hA =>
      repeat' split at hE
      all_goals (cases hE; refine ⟨rfl, rfl, rfl, Or.inr ?_⟩; rw [hr]; exact ⟨rfl, by omega, by omega⟩)
    case isFalse hA =>
      cases hE; exact ⟨rfl, rfl, rfl, Or.inl ⟨rfl, rfl⟩⟩
  case h_2 =>
    cases hE; exact ⟨rfl, rfl, rfl, Or.inl ⟨rfl, rfl⟩⟩

theorem decode_ok_advance (d : DirSt) (e : DirEntry)
    (h : (decodeStep d).res = .ok e) :
    (decodeStep d).st = { d with pos := d.pos + reclenAt d.buf d.pos } ∧
    (decodeStep d).consumed = reclenAt d.buf d.pos := by
  rcases hE : decodeStep d with ⟨res, st, reads, consumed⟩
  simp only [hE] at h ⊢
  simp only [decodeStep] at hE
  split at hE
  case h_1 r0 r1 heq0 heq1 =>
    have hr : reclenAt d.buf d.pos = u16FromNeBytes r0 r1 := by
      rw [reclenAt, byteAt_some_getD heq0, byteAt_some_getD heq1]
    split at hE
    case isTrue hA =>
      repeat' split at hE
      all_goals (cases hE; first | exact ReadResult.noConfusion h | exact ⟨by rw [hr], by rw [hr]⟩)
    case isFalse hA =>
      cases hE; exact ReadResult.noConfusion h
  case h_2 =>
    cases hE; exact ReadResult.noConfusion h

theorem decode_no_nul_panic (d : DirSt)
    (h17 : d.pos + offsetof_d_reclen + 1 < d.buf.length)
    (hassert : reclenAt d.buf d.pos ≤ d.buf.length - d.pos)
    (hnul : firstNul (d.buf.drop (d.pos + offsetof_d_name)) = Option.none) :
    (decodeStep d).res = .panic := by
  have h16 : d.pos + offsetof_d_reclen < d.buf.length := by omega
  have hA : u16FromNeBytes (d.buf.getD (d.pos + offsetof_d_reclen) 0)
      (d.buf.getD (d.pos + offsetof_d_reclen + 1) 0) ≤ d.buf.length - d.pos := by
    simpa [reclenAt] using hassert
  by_cases hns : d.pos + offsetof_d_name ≤ d.buf.length
  · simp only [decodeStep, byteAt_of_lt h16, byteAt_of_lt h17, ge_iff_le, hA,
      if_true, hns, hnul]
  · simp only [decodeStep, byteAt_of_lt h16, byteAt_of_lt h17, ge_iff_le, hA,
      if_true]
    rw [if_neg hns]

/-! ### `read_more` and `read` characterisation -/

theorem read_more_err {σ : Type} (K : KernelModel σ) (s : σ) (d : DirSt) (e : Nat)
    (h : K.getdents s (d.cap + 32 * sizeof_linux_dirent64) = .error e) :
    read_more K s d =
      (some (.error e),
       { d with buf := resizeZero d.buf (d.cap + 32 * sizeof_linux_dirent64),
                pos := 0, cap := d.cap + 32 * sizeof_linux_dirent64 },
       s, [.fill (d.cap + 32 * sizeof_linux_dirent64) (.error e)]) := by
  simp only [read_more, h]

theorem read_more_ok_zero {σ : Type} (K : KernelModel σ) (s : σ) (d : DirSt)
    (s1 : σ)
    (h : K.getdents s (d.cap + 32 * sizeof_linux_dirent64) = .ok ([], s1)) :
    read_more K s d =
      (Option.none,
       { d with buf := [], pos := 0, cap := d.cap + 32 * sizeof_linux_dirent64 },
       s1, [.fill (d.cap + 32 * sizeof_linux_dirent64) (.ok 0)]) := by
  simp only [read_more, h]
  simp [resizeZero]

theorem read_more_ok_pos {σ : Type} (K : KernelModel σ) (s : σ) (d : DirSt)
    (bytes : List Nat) (s1 : σ) (hnz : bytes.length ≠ 0)
    (h : K.getdents s (d.cap + 32 * sizeof_linux_dirent64) = .ok (bytes, s1)) :
    read_more K s d =
      (some (.ok ()),
       { d with buf := bytes, pos := 0, cap := d.cap + 32 * sizeof_linux_dirent64 },
       s1, [.fill (d.cap + 32 * sizeof_linux_dirent64) (.ok bytes.length)]) := by
  simp only [read_more, h, resizeZero_trunc]
  rw [if_neg hnz]

theorem readBody_decode {σ : Type} (K : KernelModel σ) (s : σ) (d : DirSt)
    (evs : List KEvent) (h : ¬ (d.buf.length - d.pos < sizeof_linux_dirent64)) :
    readBody K s d evs =
      ⟨(decodeStep d).res, (decodeStep d).st, s, evs,
       (decodeStep d).reads, (decodeStep d).consumed⟩ := by
  simp only [readBody, if_neg h]

theorem read_next_none {σ : Type} (K : KernelModel σ) (s : σ) (d : DirSt)
    (h : d.next = Option.none) : Dir.read K s d = readBody K s d [] := by
  unfold Dir.read
  rw [h]

theorem read_seek_err {σ : Type} (K : KernelModel σ) (s : σ) (d : DirSt)
    (v e : Nat) (hv : d.next = some v) (hs : K.seek s v = .error e) :
    Dir.read K s d =
      ⟨.err e, { d with next := Option.none }, s,
       [.seek v (.error e)], [], 0⟩ := by
  unfold Dir.read
  rw [hv]
  simp only [hs]

theorem read_seek_ok {σ : Type} (K : KernelModel σ) (s : σ) (d : DirSt)
    (v : Nat) (s1 : σ) (hv : d.next = some v) (hs : K.seek s v = .ok s1) :
    Dir.read K s d = readBody K s1 { d with next := Option.none }
      [.seek v (.ok ())] := by
  unfold Dir.read
  rw [hv]
  simp only [hs]

/-! ### Encoding lemmas for the deterministic kernel -/

theorem recLen_ge_name (r : Rec) : 20 + r.name.length ≤ recLen r := by
  simp only [recLen]; omega

theorem recLen_ge_24 (r : Rec) : 24 ≤ recLen r := by
  simp only [recLen]; omega

theorem encodeRec_length (r : Rec) : (encodeRec r).length = recLen r := by
  have h := recLen_ge_name r
  simp [encodeRec, leToBytes_length]
  omega

theorem encodeRec_group16 (r : Rec) :
    encodeRec r = (leToBytes 8 r.ino ++ leToBytes 8 0) ++
      (leToBytes 2 (recLen r) ++ ([r.typ] ++
        (r.name ++ 0 :: List.replicate (recLen r - (20 + r.name.length)) 0))) := by
  simp [encodeRec]

theorem encodeRec_drop_name (r : Rec) :
    (encodeRec r).drop offsetof_d_name =
      r.name ++ 0 :: List.replicate (recLen r - (20 + r.name.length)) 0 := by
  have h1 : encodeRec r =
      (leToBytes 8 r.ino ++ leToBytes 8 0 ++ leToBytes 2 (recLen r) ++ [r.typ]) ++
        (r.name ++ 0 :: List.replicate (recLen r - (20 + r.name.length)) 0) := by
    simp [encodeRec]
  have h2 : offsetof_d_name =
      (leToBytes 8 r.ino ++ leToBytes 8 0 ++ leToBytes 2 (recLen r) ++ [r.typ]).length := by
    simp [leToBytes_length, offsetof_d_name]
  rw [h1, h2, List.drop_left]

theorem encodeRec_firstNul (r : Rec) (h : ∀ b ∈ r.name, b ≠ 0) :
    firstNul ((encodeRec r).drop offsetof_d_name) = some r.name.length := by
  rw [encodeRec_drop_name]
  exact firstNul_append h

theorem encodeRec_reclenAt (r : Rec) (hrl : recLen r < 65536) :
    reclenAt (encodeRec r) 0 = recLen r := by
  have hl16 : (leToBytes 8 r.ino ++ leToBytes 8 0).length = 16 := by
    simp [leToBytes_length]
  have h2 : leToBytes 2 (recLen r) = [recLen r % 256, recLen r / 256 % 256] := rfl
  rw [reclenAt, encodeRec_group16, h2]
  rw [List.getD_append_right (leToBytes 8 r.ino ++ leToBytes 8 0) _ 0
        (0 + offsetof_d_reclen) (by simp [hl16, offsetof_d_reclen]),
      List.getD_append_right (leToBytes 8 r.ino ++ leToBytes 8 0) _ 0
        (0 + offsetof_d_reclen + 1) (by simp [hl16, offsetof_d_reclen])]
  rw [hl16]
  simp only [offsetof_d_reclen, Nat.zero_add]
  norm_num
  simp only [List.cons_append, List.getD_cons_zero, List.getD_cons_succ,
    u16FromNeBytes, leFromBytes]
  omega

theorem list_eight_getD (l : List Nat) (h : l.length = 8) :
    [l.getD 0 0, l.getD 1 0, l.getD 2 0, l.getD 3 0,
     l.getD 4 0, l.getD 5 0, l.getD 6 0, l.getD 7 0] = l := by
  rcases l with _ | ⟨a0, _ | ⟨a1, _ | ⟨a2, _ | ⟨a3, _ | ⟨a4, _ | ⟨a5, _ |
    ⟨a6, _ | ⟨a7, rest⟩⟩⟩⟩⟩⟩⟩⟩ <;> simp_all

theorem encodeRec_group8 (r : Rec) :
    encodeRec r = leToBytes 8 r.ino ++
      (leToBytes 8 0 ++ (leToBytes 2 (recLen r) ++ ([r.typ] ++
        (r.name ++ 0 :: List.replicate (recLen r - (20 + r.name.length)) 0)))) := by
  simp [encodeRec]

theorem encodeRec_inoAt (r : Rec) (h : r.ino < 2 ^ 64) :
    inoAt (encodeRec r) 0 = r.ino := by
  have hl8 : (leToBytes 8 r.ino).length = 8 := leToBytes_length 8 r.ino
  rw [inoAt, encodeRec_group8]
  simp only [offsetof_d_ino, Nat.zero_add, Nat.add_zero]
  rw [List.getD_append (leToBytes 8 r.ino) _ 0 0 (by omega),
      List.getD_append (leToBytes 8 r.ino) _ 0 1 (by omega),
      List.getD_append (leToBytes 8 r.ino) _ 0 2 (by omega),
      List.getD_append (leToBytes 8 r.ino) _ 0 3 (by omega),
      List.getD_append (leToBytes 8 r.ino) _ 0 4 (by omega),
      List.getD_append (leToBytes 8 r.ino) _ 0 5 (by omega),
      List.getD_append (leToBytes 8 r.ino) _ 0 6 (by omega),
      List.getD_append (leToBytes 8 r.ino) _ 0 7 (by omega)]
  rw [list_eight_getD _ hl8, leFromBytes_leToBytes]
  exact Nat.mod_eq_of_lt h

theorem encodeRec_group18 (r : Rec) :
    encodeRec r = ((leToBytes 8 r.ino ++ leToBytes 8 0) ++ leToBytes 2 (recLen r)) ++
      ([r.typ] ++ (r.name ++ 0 :: List.replicate (recLen r - (20 + r.name.length)) 0)) := by
  simp [encodeRec]

theorem encodeRec_typeAt (r : Rec) : typeAt (encodeRec r) 0 = r.typ := by
  have hl18 : ((leToBytes 8 r.ino ++ leToBytes 8 0) ++ leToBytes 2 (recLen r)).length = 18 := by
    simp [leToBytes_length]
  rw [typeAt, encodeRec_group18]
  rw [List.getD_append_right ((leToBytes 8 r.ino ++ leToBytes 8 0) ++ leToBytes 2 (recLen r)) _ 0
        (0 + offsetof_d_type) (by simp [leToBytes_length, offsetof_d_type])]
  rw [hl18]
  simp [offsetof_d_type]

theorem encodeRec_nameAt (r : Rec) :
    nameAt (encodeRec r) 0 r.name.length = r.name := by
  rw [nameAt]
  simp only [Nat.zero_add]
  rw [encodeRec_drop_name]
  have := List.take_left r.name (0 :: List.replicate (recLen r - (20 + r.name.length)) 0)
  exact this

theorem decode_encodeRec (r : Rec) (c : Nat) (nx : Option Nat)
    (h1 : r.ino < 2 ^ 64) (h3 : ∀ b ∈ r.name, 0 < b) (h4 : recLen r < 65536) :
    decodeStep ⟨encodeRec r, 0, c, nx⟩ =
      ⟨.ok (toEntry r), ⟨encodeRec r, recLen r, c, nx⟩,
       readsOk 0 r.name.length, recLen r⟩ := by
  have hk : firstNul ((encodeRec r).drop (0 + offsetof_d_name)) = some r.name.length := by
    simpa using encodeRec_firstNul r (fun b hb => by have := h3 b hb; omega)
  have hassert : reclenAt (encodeRec r) 0 ≤ (encodeRec r).length - 0 := by
    rw [encodeRec_reclenAt r h4, encodeRec_length]
    omega
  have h := decode_success_eq ⟨encodeRec r, 0, c, nx⟩ r.name.length hk hassert
  rw [h]
  simp [toEntry, encodeRec_inoAt r h1, encodeRec_typeAt, encodeRec_nameAt,
    encodeRec_reclenAt r h4]

theorem readBody_dirKernel_nil (L : List Rec) (d : DirSt) (evs : List KEvent)
    (hp : d.pos = d.buf.length) :
    readBody (dirKernel L) [] d evs =
      ⟨.none,
       { d with buf := [], pos := 0, cap := d.cap + 32 * sizeof_linux_dirent64 },
       [], evs ++ [.fill (d.cap + 32 * sizeof_linux_dirent64) (.ok 0)], [], 0⟩ := by
  have hg : (dirKernel L).getdents [] (d.cap + 32 * sizeof_linux_dirent64) =
      .ok ([], []) := rfl
  have hlt : d.buf.length - d.pos < sizeof_linux_dirent64 := by
    rw [hp]; simp [sizeof_linux_dirent64]
  simp only [readBody, if_pos hlt, read_more_ok_zero _ _ _ _ hg]

theorem readBody_dirKernel_cons (L : List Rec) (r : Rec) (rs : List Rec)
    (d : DirSt) (evs : List KEvent) (hp : d.pos = d.buf.length)
    (hwfr : WFRec r) :
    readBody (dirKernel L) (r :: rs) d evs =
      ⟨.ok (toEntry r),
       ⟨encodeRec r, recLen r, d.cap + 32 * sizeof_linux_dirent64, d.next⟩,
       rs,
       evs ++ [.fill (d.cap + 32 * sizeof_linux_dirent64) (.ok (recLen r))],
       readsOk 0 r.name.length, recLen r⟩ := by
  obtain ⟨hino, htyp, hname, hfit⟩ := hwfr
  have hlt : d.buf.length - d.pos < sizeof_linux_dirent64 := by
    rw [hp]; simp [sizeof_linux_dirent64]
  have hg : (dirKernel L).getdents (r :: rs) (d.cap + 32 * sizeof_linux_dirent64) =
      .ok (encodeRec r, rs) := by
    simp only [dirKernel]
    rw [if_pos (by omega)]
  have hnz : (encodeRec r).length ≠ 0 := by
    rw [encodeRec_length]
    have := recLen_ge_24 r
    omega
  have h4 : recLen r < 65536 := by
    simp [sizeof_linux_dirent64] at hfit
    omega
  simp only [readBody, if_pos hlt, read_more_ok_pos _ _ _ _ _ hnz hg]
  have hdec := decode_encodeRec r (d.cap + 32 * sizeof_linux_dirent64) d.next hino
    (fun b hb => (hname b hb).1) h4
  have hstate : ({ d with buf := encodeRec r, pos := 0, cap := d.cap + 32 * sizeof_linux_dirent64 } : DirSt) = ⟨encodeRec r, 0, d.cap + 32 * sizeof_linux_dirent64, d.next⟩ := rfl
  rw [hstate, hdec, encodeRec_length]

theorem drain_dirKernel (L : List Rec) :
    ∀ (rem : List Rec) (s : List Rec) (d : DirSt), (∀ r ∈ rem, WFRec r) →
      d.pos = d.buf.length →
      ((d.next = Option.none ∧ s = rem) ∨ (d.next = some 0 ∧ rem = L)) →
      ∃ dE, drain (dirKernel L) (rem.length + 1) s d =
        (rem.map toEntry, true, [], dE) ∧
        dE.next = Option.none ∧ dE.pos = dE.buf.length := by
  intro rem
  induction rem with
  | nil =>
    intro s d hwf hp hcase
    rcases hcase with ⟨hn, rfl⟩ | ⟨hn, hL⟩
    · have hread : Dir.read (dirKernel L) [] d =
          ⟨.none, { d with buf := [], pos := 0, cap := d.cap + 32 * sizeof_linux_dirent64 },
           [], [.fill (d.cap + 32 * sizeof_linux_dirent64) (.ok 0)], [], 0⟩ := by
        rw [read_next_none _ _ _ hn, readBody_dirKernel_nil L d [] hp]
        rfl
      refine ⟨{ d with buf := [], pos := 0, cap := d.cap + 32 * sizeof_linux_dirent64 }, ?_, ?_, rfl⟩
      · simp only [List.length_nil, List.map_nil, drain, hread]
      · simpa using hn
    · cases hL
      have hs : (dirKernel []).seek s 0 = .ok (List.drop 0 []) := rfl
      have hread : Dir.read (dirKernel []) s d =
          ⟨.none, { d with next := Option.none, buf := [], pos := 0, cap := d.cap + 32 * sizeof_linux_dirent64 },
           [], [.seek 0 (.ok ()), .fill (d.cap + 32 * sizeof_linux_dirent64) (.ok 0)], [], 0⟩ := by
        rw [read_seek_ok _ _ _ 0 (List.drop 0 []) hn hs, List.drop_zero]
        rw [readBody_dirKernel_nil [] { d with next := Option.none } _ hp]
        simp
      refine ⟨{ d with next := Option.none, buf := [], pos := 0, cap := d.cap + 32 * sizeof_linux_dirent64 }, ?_, rfl, rfl⟩
      simp only [List.length_nil, List.map_nil, drain, hread]
  | cons r rs ih =>
    intro s d hwf hp hcase
    have hwfr : WFRec r := hwf r (by simp)
    have hrs : ∀ x ∈ rs, WFRec x := fun x hx => hwf x (by simp [hx])
    rcases hcase with ⟨hn, rfl⟩ | ⟨hn, hL⟩
    · have hread : Dir.read (dirKernel L) (r :: rs) d =
          ⟨.ok (toEntry r),
           ⟨encodeRec r, recLen r, d.cap + 32 * sizeof_linux_dirent64, Option.none⟩,
           rs, [.fill (d.cap + 32 * sizeof_linux_dirent64) (.ok (recLen r))],
           readsOk 0 r.name.length, recLen r⟩ := by
        rw [read_next_none _ _ _ hn, readBody_dirKernel_cons L r rs d [] hp hwfr, hn]
        rfl
      obtain ⟨dE, hdE, hE1, hE2⟩ := ih rs
        ⟨encodeRec r, recLen r, d.cap + 32 * sizeof_linux_dirent64, Option.none⟩
        hrs (by simpa using (encodeRec_length r).symm) (Or.inl ⟨rfl, rfl⟩)
      refine ⟨dE, ?_, hE1, hE2⟩
      simp only [List.length_cons]
      rw [drain]
      simp only [hread]
      simp only [hdE]
      simp [List.map_cons]
    · cases hL
      have hs : (dirKernel (r :: rs)).seek s 0 = .ok (List.drop 0 (r :: rs)) := rfl
      have hread : Dir.read (dirKernel (r :: rs)) s d =
          ⟨.ok (toEntry r),
           ⟨encodeRec r, recLen r, d.cap + 32 * sizeof_linux_dirent64, Option.none⟩,
           rs, [.seek 0 (.ok ()), .fill (d.cap + 32 * sizeof_linux_dirent64) (.ok (recLen r))],
           readsOk 0 r.name.length, recLen r⟩ := by
        rw [read_seek_ok _ _ _ 0 (List.drop 0 (r :: rs)) hn hs, List.drop_zero]
        rw [readBody_dirKernel_cons (r :: rs) r rs { d with next := Option.none } _ hp hwfr]
        simp
      obtain ⟨dE, hdE, hE1, hE2⟩ := ih rs
        ⟨encodeRec r, recLen r, d.cap + 32 * sizeof_linux_dirent64, Option.none⟩
        hrs (by simpa using (encodeRec_length r).symm) (Or.inl ⟨rfl, rfl⟩)
      refine ⟨dE, ?_, hE1, hE2⟩
      simp only [List.length_cons]
      rw [drain]
      simp only [hread]
      simp only [hdE]
      simp [List.map_cons]

/-! ### Cursor invariant and consumed-bytes accounting -/

theorem suppliedOf_append : ∀ (a b : List KEvent),
    suppliedOf (a ++ b) = suppliedOf a + suppliedOf b := by
  intro a b
  induction a with
  | nil => simp [suppliedOf]
  | cons e es ih =>
    cases e with
    | seek t r => simpa [suppliedOf] using ih
    | fill c r =>
      cases r with
      | ok n => simp [suppliedOf, ih]; omega
      | error e2 => simpa [suppliedOf] using ih

theorem readBody_inv {σ : Type} (K : KernelModel σ) (s : σ) (d : DirSt)
    (evs : List KEvent) (h : d.pos ≤ d.buf.length) :
    (readBody K s d evs).st.pos ≤ (readBody K s d evs).st.buf.length := by
  by_cases hlt : d.buf.length - d.pos < sizeof_linux_dirent64
  · cases hg : K.getdents s (d.cap + 32 * sizeof_linux_dirent64) with
    | error e =>
      simp [readBody, if_pos hlt, read_more_err _ _ _ _ hg]
    | ok p =>
      obtain ⟨bytes, s1⟩ := p
      by_cases hz : bytes.length = 0
      · have hb : bytes = [] := List.length_eq_zero.mp hz
        subst hb
        simp [readBody, if_pos hlt, read_more_ok_zero _ _ _ _ hg]
      · simp only [readBody, if_pos hlt, read_more_ok_pos _ _ _ _ _ hz hg]
        have hsh := decode_shape { d with buf := bytes, pos := 0, cap := d.cap + 32 * sizeof_linux_dirent64 }
        obtain ⟨hb, hc, hn, hcase⟩ := hsh
        rcases hcase with ⟨h1, h2⟩ | ⟨h1, h2, h3⟩ <;> simp_all <;> omega
  · simp only [readBody, if_neg hlt]
    have hsh := decode_shape d
    obtain ⟨hb, hc, hn, hcase⟩ := hsh
    rcases hcase with ⟨h1, h2⟩ | ⟨h1, h2, h3⟩ <;> simp_all <;> omega

theorem read_inv {σ : Type} (K : KernelModel σ) (s : σ) (d : DirSt)
    (h : d.pos ≤ d.buf.length) :
    (Dir.read K s d).st.pos ≤ (Dir.read K s d).st.buf.length := by
  cases hv : d.next with
  | none =>
    rw [read_next_none _ _ _ hv]
    exact readBody_inv K s d [] h
  | some v =>
    cases hs : K.seek s v with
    | error e =>
      simp [read_seek_err _ _ _ _ _ hv hs, h]
    | ok s1 =>
      rw [read_seek_ok _ _ _ _ _ hv hs]
      exact readBody_inv K s1 { d with next := Option.none } [.seek v (.ok ())] h

theorem readBody_consumed {σ : Type} (K : KernelModel σ) (s : σ) (d : DirSt)
    (evs : List KEvent) (h : d.pos ≤ d.buf.length) (hevs : suppliedOf evs = 0)
    (hnf : ∀ ev ∈ (readBody K s d evs).events, isFillErr ev = false) :
    (readBody K s d evs).consumed +
        ((readBody K s d evs).st.buf.length - (readBody K s d evs).st.pos) ≤
      suppliedOf (readBody K s d evs).events + (d.buf.length - d.pos) := by
  by_cases hlt : d.buf.length - d.pos < sizeof_linux_dirent64
  · cases hg : K.getdents s (d.cap + 32 * sizeof_linux_dirent64) with
    | error e =>
      exfalso
      have hmem : KEvent.fill (d.cap + 32 * sizeof_linux_dirent64) (.error e) ∈
          (readBody K s d evs).events := by
        simp [readBody, if_pos hlt, read_more_err _ _ _ _ hg]
      have := hnf _ hmem
      simp [isFillErr] at this
    | ok p =>
      obtain ⟨bytes, s1⟩ := p
      by_cases hz : bytes.length = 0
      · have hb : bytes = [] := List.length_eq_zero.mp hz
        subst hb
        simp [readBody, if_pos hlt, read_more_ok_zero _ _ _ _ hg]
      · simp only [readBody, if_pos hlt, read_more_ok_pos _ _ _ _ _ hz hg]
        have hsh := decode_shape { d with buf := bytes, pos := 0, cap := d.cap + 32 * sizeof_linux_dirent64 }
        obtain ⟨hb, hc, hn, hcase⟩ := hsh
        rw [suppliedOf_append, hevs]
        rcases hcase with ⟨h1, h2⟩ | ⟨h1, h2, h3⟩ <;>
          simp_all [suppliedOf] <;> omega
  · simp only [readBody, if_neg hlt]
    have hsh := decode_shape d
    obtain ⟨hb, hc, hn, hcase⟩ := hsh
    rw [hevs]
    rcases hcase with ⟨h1, h2⟩ | ⟨h1, h2, h3⟩ <;> simp_all <;> omega

theorem read_consumed {σ : Type} (K : KernelModel σ) (s : σ) (d : DirSt)
    (h : d.pos ≤ d.buf.length)
    (hnf : ∀ ev ∈ (Dir.read K s d).events, isFillErr ev = false) :
    (Dir.read K s d).consumed +
        ((Dir.read K s d).st.buf.length - (Dir.read K s d).st.pos) ≤
      suppliedOf (Dir.read K s d).events + (d.buf.length - d.pos) := by
  cases hv : d.next with
  | none =>
    rw [read_next_none _ _ _ hv] at hnf ⊢
    exact readBody_consumed K s d [] h rfl hnf
  | some v =>
    cases hs : K.seek s v with
    | error e =>
      simp [read_seek_err _ _ _ _ _ hv hs, suppliedOf]
    | ok s1 =>
      rw [read_seek_ok _ _ _ _ _ hv hs] at hnf ⊢
      exact readBody_consumed K s1 { d with next := Option.none }
        [.seek v (.ok ())] h rfl hnf

theorem runReads_inv {σ : Type} (K : KernelModel σ) :
    ∀ (fuel : Nat) (s : σ) (d : DirSt), d.pos ≤ d.buf.length →
      (runReads K fuel s d).st.pos ≤ (runReads K fuel s d).st.buf.length := by
  intro fuel
  induction fuel with
  | zero => intro s d h; simpa [runReads] using h
  | succ f ih =>
    intro s d h
    simp only [runReads]
    exact ih _ _ (read_inv K s d h)

theorem runReads_consumed {σ : Type} (K : KernelModel σ) :
    ∀ (fuel : Nat) (s : σ) (d : DirSt), d.pos ≤ d.buf.length →
      (∀ ev ∈ (runReads K fuel s d).events, isFillErr ev = false) →
      (runReads K fuel s d).consumed +
          ((runReads K fuel s d).st.buf.length - (runReads K fuel s d).st.pos) ≤
        suppliedOf (runReads K fuel s d).events + (d.buf.length - d.pos) := by
  intro fuel
  induction fuel with
  | zero => intro s d h hnf; simp [runReads]
  | succ f ih =>
    intro s d h hnf
    simp only [runReads] at hnf ⊢
    have hnf1 : ∀ ev ∈ (Dir.read K s d).events, isFillErr ev = false := by
      intro ev hev
      exact hnf ev (by simp [hev])
    have hnf2 : ∀ ev ∈ (runReads K f (Dir.read K s d).ks (Dir.read K s d).st).events,
        isFillErr ev = false := by
      intro ev hev
      exact hnf ev (by simp [hev])
    have h1 := read_consumed K s d h hnf1
    have h2 := ih (Dir.read K s d).ks (Dir.read K s d).st (read_inv K s d h) hnf2
    rw [suppliedOf_append]
    omega

/-! ### Concrete fixtures -/

/-- A kernel whose calls all succeed trivially (never consulted by a
decode that finds a full record already buffered). -/
def trivK : KernelModel Unit := ⟨fun s _ => .ok s, fun s _ => .ok ([], s)⟩

/-- A kernel whose seek calls always fail with errno 5. -/
def seekFailK : KernelModel Unit := ⟨fun _ _ => .error 5, fun s _ => .ok ([], s)⟩

/-- Two records packed back-to-back: declared lengths 24 (offset 0)
and 32 (offset 24), total 56 bytes. -/
def twoRecBuf : List Nat :=
  encodeRec ⟨1, 4, [97]⟩ ++ encodeRec ⟨2, 8, [104, 101, 108, 108, 111]⟩

/-- A 24-byte record whose name region holds no NUL anywhere up to the
end of the buffer. -/
def noNulBuf : List Nat :=
  [0, 0, 0, 0, 0, 0, 0, 0, 0, 0, 0, 0, 0, 0, 0, 0, 24, 0, 4, 97, 97, 97, 97, 97]

/-- A 24-byte buffer whose record at offset 0 declares length 100. -/
def badReclenBuf : List Nat :=
  [0, 0, 0, 0, 0, 0, 0, 0, 0, 0, 0, 0, 0, 0, 0, 0, 100, 0, 4, 97, 0, 0, 0, 0]

theorem readBody_events {σ : Type} (K : KernelModel σ) (s : σ) (d : DirSt)
    (evs : List KEvent) :
    ∃ tail, (readBody K s d evs).events = evs ++ tail ∧
      ∀ ev ∈ tail, isSeekEvent ev = false := by
  by_cases hlt : d.buf.length - d.pos < sizeof_linux_dirent64
  · cases hg : K.getdents s (d.cap + 32 * sizeof_linux_dirent64) with
    | error e =>
      exact ⟨[.fill (d.cap + 32 * sizeof_linux_dirent64) (.error e)],
        by simp [readBody, if_pos hlt, read_more_err _ _ _ _ hg],
        by simp [isSeekEvent]⟩
    | ok p =>
      obtain ⟨bytes, s1⟩ := p
      by_cases hz : bytes.length = 0
      · have hb : bytes = [] := List.length_eq_zero.mp hz
        subst hb
        exact ⟨[.fill (d.cap + 32 * sizeof_linux_dirent64) (.ok 0)],
          by simp [readBody, if_pos hlt, read_more_ok_zero _ _ _ _ hg],
          by simp [isSeekEvent]⟩
      · exact ⟨[.fill (d.cap + 32 * sizeof_linux_dirent64) (.ok bytes.length)],
          by simp [readBody, if_pos hlt, read_more_ok_pos _ _ _ _ _ hz hg],
          by simp [isSeekEvent]⟩
  · exact ⟨[], by simp [readBody, if_neg hlt], by simp⟩


theorem readBody_refill_err {σ : Type} (K : KernelModel σ) (s : σ) (d : DirSt)
    (evs : List KEvent) (e : Nat)
    (hlt : d.buf.length - d.pos < sizeof_linux_dirent64)
    (hg : K.getdents s (d.cap + 32 * sizeof_linux_dirent64) = .error e) :
    readBody K s d evs =
      ⟨.err e,
       { d with buf := resizeZero d.buf (d.cap + 32 * sizeof_linux_dirent64), pos := 0, cap := d.cap + 32 * sizeof_linux_dirent64 },
       s, evs ++ [.fill (d.cap + 32 * sizeof_linux_dirent64) (.error e)], [], 0⟩ := by
  simp only [readBody, if_pos hlt, read_more_err _ _ _ _ hg]

theorem readBody_refill_zero {σ : Type} (K : KernelModel σ) (s : σ) (d : DirSt)
    (evs : List KEvent) (s1 : σ)
    (hlt : d.buf.length - d.pos < sizeof_linux_dirent64)
    (hg : K.getdents s (d.cap + 32 * sizeof_linux_dirent64) = .ok ([], s1)) :
    readBody K s d evs =
      ⟨.none,
       { d with buf := [], pos := 0, cap := d.cap + 32 * sizeof_linux_dirent64 },
       s1, evs ++ [.fill (d.cap + 32 * sizeof_linux_dirent64) (.ok 0)], [], 0⟩ := by
  simp only [readBody, if_pos hlt, read_more_ok_zero _ _ _ _ hg]

theorem readBody_refill_pos {σ : Type} (K : KernelModel σ) (s : σ) (d : DirSt)
    (evs : List KEvent) (bytes : List Nat) (s1 : σ) (hnz : bytes.length ≠ 0)
    (hlt : d.buf.length - d.pos < sizeof_linux_dirent64)
    (hg : K.getdents s (d.cap + 32 * sizeof_linux_dirent64) = .ok (bytes, s1)) :
    readBody K s d evs =
      ⟨(decodeStep { d with buf := bytes, pos := 0, cap := d.cap + 32 * sizeof_linux_dirent64 }).res,
       (decodeStep { d with buf := bytes, pos := 0, cap := d.cap + 32 * sizeof_linux_dirent64 }).st,
       s1, evs ++ [.fill (d.cap + 32 * sizeof_linux_dirent64) (.ok bytes.length)],
       (decodeStep { d with buf := bytes, pos := 0, cap := d.cap + 32 * sizeof_linux_dirent64 }).reads,
       (decodeStep { d with buf := bytes, pos := 0, cap := d.cap + 32 * sizeof_linux_dirent64 }).consumed⟩ := by
  simp only [readBody, if_pos hlt, read_more_ok_pos _ _ _ _ _ hnz hg]

/-! ### Claim theorems -/

/-- Claim C1, counterexample: over an empty directory, the first
`read()` gets a zero-byte fill and returns `None`, yet the very next
`read()` call issues another kernel fill call (capacity 1536), so it
is false that no further kernel calls are issued until a `rewind()`. -/
theorem C1_counterexample :
    (Dir.read (dirKernel []) [] dirInit).res = .none ∧
    (Dir.read (dirKernel []) [] dirInit).events = [.fill 768 (.ok 0)] ∧
    (Dir.read (dirKernel []) (Dir.read (dirKernel []) [] dirInit).ks
        (Dir.read (dirKernel []) [] dirInit).st).events = [.fill 1536 (.ok 0)] :=
  ⟨by decide, by decide, by decide⟩

/-- Claim C1, amended: a zero-byte fill makes that `read()` call
return `None` with no further kernel calls during that same call; but
every subsequent `read()` call issues a fresh fill call (and no seek)
rather than remembering end-of-stream. -/
theorem C1_amended {σ : Type} (K : KernelModel σ) (s : σ) (d : DirSt)
    (hn : d.next = Option.none)
    (hlt : d.buf.length - d.pos < sizeof_linux_dirent64) (s1 : σ)
    (hz : K.getdents s (d.cap + 32 * sizeof_linux_dirent64) = .ok ([], s1)) :
    Dir.read K s d =
      ⟨.none, { d with buf := [], pos := 0, cap := d.cap + 32 * sizeof_linux_dirent64 },
       s1, [.fill (d.cap + 32 * sizeof_linux_dirent64) (.ok 0)], [], 0⟩ ∧
    ∀ {σ2 : Type} (K2 : KernelModel σ2) (s2 : σ2),
      ∃ fres, (Dir.read K2 s2
          { d with buf := [], pos := 0, cap := d.cap + 32 * sizeof_linux_dirent64 }).events =
        [KEvent.fill (d.cap + 32 * sizeof_linux_dirent64 + 32 * sizeof_linux_dirent64) fres] := by
  constructor
  · rw [read_next_none _ _ _ hn]
    have h := read_more_ok_zero K s d s1 hz
    simp [readBody, if_pos hlt, h]
  · intro σ2 K2 s2
    have hn2 : ({ d with buf := [], pos := 0, cap := d.cap + 32 * sizeof_linux_dirent64 } : DirSt).next = Option.none := hn
    rw [read_next_none _ _ _ hn2]
    have hlt2 : (([] : List Nat)).length - 0 < sizeof_linux_dirent64 := by
      simp [sizeof_linux_dirent64]
    cases hg : K2.getdents s2 (d.cap + 32 * sizeof_linux_dirent64 + 32 * sizeof_linux_dirent64) with
    | error e =>
      refine ⟨.error e, ?_⟩
      rw [readBody_refill_err K2 s2 _ [] e (by simp [sizeof_linux_dirent64]) hg]
      simp
    | ok p =>
      obtain ⟨bytes, s3⟩ := p
      by_cases hz2 : bytes.length = 0
      · have hb : bytes = [] := List.length_eq_zero.mp hz2
        subst hb
        refine ⟨.ok 0, ?_⟩
        rw [readBody_refill_zero K2 s2 _ [] s3 (by simp [sizeof_linux_dirent64]) hg]
        simp
      · refine ⟨.ok bytes.length, ?_⟩
        rw [readBody_refill_pos K2 s2 _ [] bytes s3 hz2 (by simp [sizeof_linux_dirent64]) hg]
        simp

/-- Claim C1, witness for the amended theorem at a concrete input. -/
theorem C1_amended_witness :
    Dir.read (dirKernel []) [] dirInit =
      ⟨.none, { dirInit with buf := [], pos := 0, cap := 768 },
       [], [.fill 768 (.ok 0)], [], 0⟩ :=
  (C1_amended (dirKernel []) [] dirInit rfl (by decide) [] rfl).1

/-- Claim C2: when the record starting at `cursor` is well formed —
the `assert!`ed kernel promise holds and the name's terminating NUL
lies within the declared record length (spec §4.3 preconditions) —
every buffer byte offset the decoder reads (record-length field, NUL
scan, `CStr` re-validation, inode field, type-code field) is strictly
below `cursor + declared record length`. -/
theorem C2_reads_bounded (d : DirSt) (k : Nat)
    (hk : firstNul (d.buf.drop (d.pos + offsetof_d_name)) = some k)
    (hin : d.pos + offsetof_d_name + k < d.pos + reclenAt d.buf d.pos)
    (hassert : reclenAt d.buf d.pos ≤ d.buf.length - d.pos) :
    ∀ i ∈ (decodeStep d).reads, i < d.pos + reclenAt d.buf d.pos := by
  rw [decode_success_eq d k hk hassert]
  intro i hi
  have hin1 : d.pos + 19 + k < d.pos + reclenAt d.buf d.pos := by
    simpa [offsetof_d_name] using hin
  simp only [readsOk, scanOffsets, offsetof_d_reclen, offsetof_d_name,
    offsetof_d_ino, offsetof_d_type, List.mem_append, List.mem_cons,
    List.mem_map, List.mem_range, List.mem_singleton,
    List.not_mem_nil, or_false] at hi
  clear hin
  rcases hi with (((h | h) | ⟨x, hx, rfl⟩) | ⟨x, hx, rfl⟩) | ⟨x, hx, rfl⟩ | h <;> omega

/-- Claim C2, witness: a concrete well-formed 24-byte record; the scan
offset 19 is among the decoder's reads and is below `0 + 24`. -/
theorem C2_witness :
    19 < 0 + reclenAt (encodeRec ⟨1, 4, [97]⟩) 0 :=
  C2_reads_bounded ⟨encodeRec ⟨1, 4, [97]⟩, 0, 768, Option.none⟩ 1
    (by decide) (by decide) (by decide) 19 (by decide)

/-- Claim C3, counterexample: a fill failure leaves the grown buffer
holding stale record bytes (`Vec::resize` keeps the prefix), and the
next `read()` re-decodes the already-consumed record: after reads
[Ok, Err, Ok] the cumulative consumed bytes are 48 while the kernel
only ever supplied 24. -/
theorem C3_counterexample :
    (runReads c3Kernel 3 0 dirInit).consumed = 48 ∧
    suppliedOf (runReads c3Kernel 3 0 dirInit).events = 24 ∧
    ¬ ((runReads c3Kernel 3 0 dirInit).consumed ≤
        suppliedOf (runReads c3Kernel 3 0 dirInit).events) :=
  ⟨by decide, by decide, by decide⟩

/-- Claim C3, amended: the cursor invariant `pos ≤ len(buffer)` holds
after construction, after `rewind`, and after every `read()`
unconditionally; and in any run of `read()` calls in which no kernel
fill call fails, the cumulative consumed bytes never exceed the bytes
supplied by the kernel fill calls. -/
theorem C3_amended :
    dirInit.pos ≤ dirInit.buf.length ∧
    (∀ d : DirSt, (rewind d).pos ≤ (rewind d).buf.length) ∧
    (∀ {σ : Type} (K : KernelModel σ) (s : σ) (d : DirSt),
      d.pos ≤ d.buf.length →
      (Dir.read K s d).st.pos ≤ (Dir.read K s d).st.buf.length) ∧
    (∀ {σ : Type} (K : KernelModel σ) (fuel : Nat) (s : σ),
      (∀ ev ∈ (runReads K fuel s dirInit).events, isFillErr ev = false) →
      (runReads K fuel s dirInit).consumed ≤
        suppliedOf (runReads K fuel s dirInit).events) := by
  refine ⟨by simp [dirInit], fun d => by simp [rewind],
    fun K s d h => read_inv K s d h, ?_⟩
  intro σ K fuel s hnf
  have h := runReads_consumed K fuel s dirInit (by simp [dirInit]) hnf
  simp [dirInit] at h ⊢
  omega

/-- Claim C3, witness: the amended bound at a concrete error-free run. -/
theorem C3_amended_witness :
    (runReads (dirKernel [⟨1, 4, [97]⟩]) 2 [⟨1, 4, [97]⟩] dirInit).consumed ≤
      suppliedOf (runReads (dirKernel [⟨1, 4, [97]⟩]) 2 [⟨1, 4, [97]⟩] dirInit).events :=
  C3_amended.2.2.2 (dirKernel [⟨1, 4, [97]⟩]) 2 [⟨1, 4, [97]⟩] (by decide)

/-- Claim C4: with at least a full header buffered and a declared
record length exceeding the remaining buffer, `read()` hits the fatal
`assert!` before the cursor moves and after reading only the two
record-length bytes (both in bounds): it returns the panic outcome,
leaves the state untouched, issues no kernel call, and consumes
nothing — never a silent out-of-bounds read, never an entry. -/
theorem C4_assert_fatal {σ : Type} (K : KernelModel σ) (s : σ) (d : DirSt)
    (hn : d.next = Option.none)
    (hhdr : sizeof_linux_dirent64 ≤ d.buf.length - d.pos)
    (hbad : d.buf.length - d.pos < reclenAt d.buf d.pos) :
    Dir.read K s d =
      ⟨.panic, d, s, [],
       [d.pos + offsetof_d_reclen, d.pos + offsetof_d_reclen + 1], 0⟩ ∧
    d.pos + offsetof_d_reclen + 1 < d.buf.length := by
  have hlen : d.pos + offsetof_d_reclen + 1 < d.buf.length := by
    simp only [sizeof_linux_dirent64] at hhdr
    simp only [offsetof_d_reclen]
    omega
  constructor
  · rw [read_next_none _ _ _ hn,
      readBody_decode _ _ _ _ (by simp only [sizeof_linux_dirent64] at hhdr ⊢; omega),
      decode_assert_panic d hlen hbad]
  · exact hlen

/-- Claim C4, witness: a 24-byte buffer declaring record length 100. -/
theorem C4_witness :
    Dir.read trivK () ⟨badReclenBuf, 0, 0, Option.none⟩ =
      ⟨.panic, ⟨badReclenBuf, 0, 0, Option.none⟩, (), [], [16, 17], 0⟩ :=
  (C4_assert_fatal trivK () ⟨badReclenBuf, 0, 0, Option.none⟩ rfl
    (by decide) (by decide)).1

/-- Claim C5: `rewind()` sets the pending seek target to position 0
and the cursor to the buffer end (empty unconsumed region); the next
`read()` then issues the seek first, and on seek success performs
exactly one fresh fill before any decode; any record it decodes comes
from the freshly filled bytes, never from the previously buffered
ones. -/
theorem C5_rewind {σ : Type} (K : KernelModel σ) (s : σ) (d : DirSt) :
    (rewind d).next = some 0 ∧
    (rewind d).pos = (rewind d).buf.length ∧
    (∀ e, K.seek s 0 = .error e →
      (Dir.read K s (rewind d)).events = [.seek 0 (.error e)]) ∧
    (∀ s1, K.seek s 0 = .ok s1 →
      (∃ fres, (Dir.read K s (rewind d)).events =
        [.seek 0 (.ok ()), .fill (d.cap + 32 * sizeof_linux_dirent64) fres]) ∧
      (∀ bytes s2, K.getdents s1 (d.cap + 32 * sizeof_linux_dirent64) = .ok (bytes, s2) →
        bytes.length ≠ 0 →
        (Dir.read K s (rewind d)).res =
          (decodeStep ⟨bytes, 0, d.cap + 32 * sizeof_linux_dirent64, Option.none⟩).res ∧
        (Dir.read K s (rewind d)).st =
          (decodeStep ⟨bytes, 0, d.cap + 32 * sizeof_linux_dirent64, Option.none⟩).st)) := by
  have hv : (rewind d).next = some 0 := rfl
  have hlt : (rewind d).buf.length - (rewind d).pos < sizeof_linux_dirent64 := by
    simp [rewind, sizeof_linux_dirent64]
  refine ⟨rfl, rfl, ?_, ?_⟩
  · intro e he
    rw [read_seek_err _ _ _ _ _ hv he]
  · intro s1 hs
    have hlt0 : ({ rewind d with next := Option.none } : DirSt).buf.length -
        ({ rewind d with next := Option.none } : DirSt).pos < sizeof_linux_dirent64 := by
      simp [rewind, sizeof_linux_dirent64]
    constructor
    · rw [read_seek_ok _ _ _ _ _ hv hs]
      cases hg : K.getdents s1 ((rewind d).cap + 32 * sizeof_linux_dirent64) with
      | error e =>
        exact ⟨.error e, by rw [readBody_refill_err _ _ _ _ e hlt0 hg]; simp [rewind]⟩
      | ok p =>
        obtain ⟨bytes, s2⟩ := p
        by_cases hz : bytes.length = 0
        · have hb : bytes = [] := List.length_eq_zero.mp hz
          subst hb
          exact ⟨.ok 0, by rw [readBody_refill_zero _ _ _ _ s2 hlt0 hg]; simp [rewind]⟩
        · exact ⟨.ok bytes.length, by rw [readBody_refill_pos _ _ _ _ bytes s2 hz hlt0 hg]; simp [rewind]⟩
    · intro bytes s2 hg hnz
      rw [read_seek_ok _ _ _ _ _ hv hs,
        readBody_refill_pos _ _ _ _ bytes s2 hnz hlt0 hg]
      exact ⟨rfl, rfl⟩

/-- Claim C5, witness: rewinding a stream with stale buffered bytes
over a one-record directory; the post-rewind `read()` decodes exactly
the freshly filled record bytes. -/
theorem C5_witness :
    (Dir.read (dirKernel [⟨1, 4, [97]⟩]) [] (rewind ⟨[9, 9, 9], 0, 0, Option.none⟩)).res =
      (decodeStep ⟨encodeRec ⟨1, 4, [97]⟩, 0, 768, Option.none⟩).res :=
  (((C5_rewind (dirKernel [⟨1, 4, [97]⟩]) [] ⟨[9, 9, 9], 0, 0, Option.none⟩).2.2.2
    [⟨1, 4, [97]⟩] rfl).2 (encodeRec ⟨1, 4, [97]⟩) [] rfl (by decide)).1

/-- Claim C6: over a fixed directory of well-formed records, draining
to `None`, rewinding, and draining again yields the same entries (the
full record list, decoded) in the same order, and both drains
complete. -/
theorem C6_replay (L : List Rec) (hwf : ∀ r ∈ L, WFRec r) :
    (drain (dirKernel L) (L.length + 1) L dirInit).1 = L.map toEntry ∧
    (drain (dirKernel L) (L.length + 1) L dirInit).2.1 = true ∧
    (drain (dirKernel L) (L.length + 1)
        (drain (dirKernel L) (L.length + 1) L dirInit).2.2.1
        (rewind (drain (dirKernel L) (L.length + 1) L dirInit).2.2.2)).1 = L.map toEntry ∧
    (drain (dirKernel L) (L.length + 1)
        (drain (dirKernel L) (L.length + 1) L dirInit).2.2.1
        (rewind (drain (dirKernel L) (L.length + 1) L dirInit).2.2.2)).2.1 = true := by
  obtain ⟨d1, h1, hn1, hp1⟩ :=
    drain_dirKernel L L L dirInit hwf rfl (Or.inl ⟨rfl, rfl⟩)
  obtain ⟨d2, h2, hn2, hp2⟩ :=
    drain_dirKernel L L [] (rewind d1) hwf rfl (Or.inr ⟨rfl, rfl⟩)
  rw [h1]
  exact ⟨rfl, rfl, by rw [h2], by rw [h2]⟩

/-- Claim C6, witness: the replay property at a concrete two-record
directory. -/
theorem C6_witness :
    (drain (dirKernel [⟨1, 4, [97]⟩, ⟨2, 8, [98, 99]⟩]) 3
        [⟨1, 4, [97]⟩, ⟨2, 8, [98, 99]⟩] dirInit).1 =
      List.map toEntry [⟨1, 4, [97]⟩, ⟨2, 8, [98, 99]⟩] :=
  (C6_replay [⟨1, 4, [97]⟩, ⟨2, 8, [98, 99]⟩] (by decide)).1

/-- Claim C7: with a pending seek target `v`, `read()` issues the
kernel seek with target `v` as its first kernel call; if the seek
fails, the call returns `Some(Err(e))` immediately — no fill call, no
decode (no buffer byte read, nothing consumed), only `next` cleared. -/
theorem C7_pending_seek {σ : Type} (K : KernelModel σ) (s : σ) (d : DirSt)
    (v : Nat) (hv : d.next = some v) :
    (∃ r rest, (Dir.read K s d).events = KEvent.seek v r :: rest) ∧
    (∀ e, K.seek s v = .error e →
      Dir.read K s d =
        ⟨.err e, { d with next := Option.none }, s,
         [.seek v (.error e)], [], 0⟩) := by
  constructor
  · cases hs : K.seek s v with
    | error e =>
      exact ⟨.error e, [], by rw [read_seek_err _ _ _ _ _ hv hs]⟩
    | ok s1 =>
      obtain ⟨tail, ht, _⟩ :=
        readBody_events K s1 { d with next := Option.none } [.seek v (.ok ())]
      exact ⟨.ok (), tail, by rw [read_seek_ok _ _ _ _ _ hv hs, ht]; rfl⟩
  · intro e he
    rw [read_seek_err _ _ _ _ _ hv he]

/-- Claim C7, witness: a failing seek on a concrete stream. -/
theorem C7_witness :
    Dir.read seekFailK () ⟨[1, 2], 1, 7, some 0⟩ =
      ⟨.err 5, ⟨[1, 2], 1, 7, Option.none⟩, (), [.seek 0 (.error 5)], [], 0⟩ :=
  (C7_pending_seek seekFailK () ⟨[1, 2], 1, 7, some 0⟩ 0 rfl).2 5 rfl

/-- Claim C8: a successful decode moves the cursor by exactly the
declared record length and changes nothing else in the stream state;
concretely, two records of declared lengths 24 and 32 packed at
offsets 0 and 24 decode as two entries with the cursor ending at 56,
with no kernel calls (the byte-list model carries no alignment, and
every load in `decodeStep` is byte-wise, so backing alignment cannot
affect the result). -/
theorem C8_cursor_advance :
    (∀ (d : DirSt) (e : DirEntry), (decodeStep d).res = .ok e →
      (decodeStep d).st = { d with pos := d.pos + reclenAt d.buf d.pos }) ∧
    ((Dir.read trivK () ⟨twoRecBuf, 0, 0, Option.none⟩).res = .ok ⟨1, 4, [97]⟩ ∧
     (Dir.read trivK () ⟨twoRecBuf, 0, 0, Option.none⟩).st.pos = 24 ∧
     (Dir.read trivK () ⟨twoRecBuf, 0, 0, Option.none⟩).events = [] ∧
     (Dir.read trivK (Dir.read trivK () ⟨twoRecBuf, 0, 0, Option.none⟩).ks
        (Dir.read trivK () ⟨twoRecBuf, 0, 0, Option.none⟩).st).res =
       .ok ⟨2, 8, [104, 101, 108, 108, 111]⟩ ∧
     (Dir.read trivK (Dir.read trivK () ⟨twoRecBuf, 0, 0, Option.none⟩).ks
        (Dir.read trivK () ⟨twoRecBuf, 0, 0, Option.none⟩).st).st.pos = 56 ∧
     (Dir.read trivK (Dir.read trivK () ⟨twoRecBuf, 0, 0, Option.none⟩).ks
        (Dir.read trivK () ⟨twoRecBuf, 0, 0, Option.none⟩).st).events = []) :=
  ⟨fun d e h => (decode_ok_advance d e h).1, by decide⟩

/-- Claim C8, witness: the exact-advance law applied to a concrete
record. -/
theorem C8_witness :
    (decodeStep ⟨encodeRec ⟨1, 4, [97]⟩, 0, 0, Option.none⟩).st =
      { (⟨encodeRec ⟨1, 4, [97]⟩, 0, 0, Option.none⟩ : DirSt) with
        pos := 0 + reclenAt (encodeRec ⟨1, 4, [97]⟩) 0 } :=
  C8_cursor_advance.1 ⟨encodeRec ⟨1, 4, [97]⟩, 0, 0, Option.none⟩ ⟨1, 4, [97]⟩
    (by decide)

/-- Claim C9: `next.take()` clears the pending seek before the kernel
call, so after a failed seek the target is gone: the kernel state is
unchanged, and the next `read()` issues no seek at all — it proceeds
straight to refill from the un-repositioned position and, if that fill
succeeds (say, returning zero bytes), reports no error about the lost
seek. -/
theorem C9_seek_cleared {σ : Type} (K : KernelModel σ) (s : σ) (d : DirSt)
    (v e : Nat) (hv : d.next = some v) (hs : K.seek s v = .error e) :
    (Dir.read K s d).st.next = Option.none ∧
    (Dir.read K s d).ks = s ∧
    (∀ {σ2 : Type} (K2 : KernelModel σ2) (s2 : σ2),
      ∀ ev ∈ (Dir.read K2 s2 (Dir.read K s d).st).events,
        isSeekEvent ev = false) ∧
    (∀ {σ2 : Type} (K2 : KernelModel σ2) (s2 : σ2) (s3 : σ2),
      (Dir.read K s d).st.buf.length - (Dir.read K s d).st.pos < sizeof_linux_dirent64 →
      K2.getdents s2 ((Dir.read K s d).st.cap + 32 * sizeof_linux_dirent64) = .ok ([], s3) →
      (Dir.read K2 s2 (Dir.read K s d).st).res = .none) := by
  rw [read_seek_err _ _ _ _ _ hv hs]
  refine ⟨rfl, rfl, ?_, ?_⟩
  · intro σ2 K2 s2 ev hev
    rw [read_next_none _ _ _ rfl] at hev
    obtain ⟨tail, ht, htail⟩ :=
      readBody_events K2 s2 { d with next := Option.none } []
    rw [ht] at hev
    exact htail ev (by simpa using hev)
  · intro σ2 K2 s2 s3 hlt hg
    rw [read_next_none _ _ _ rfl,
      readBody_refill_zero K2 s2 _ [] s3 hlt hg]

/-- Claim C9, witness: after a failed seek on a concrete stream, the
pending target is cleared and the following call reports end of
stream with no seek issued. -/
theorem C9_witness :
    (Dir.read seekFailK () ⟨[], 0, 0, some 3⟩).st.next = Option.none :=
  (C9_seek_cleared seekFailK () ⟨[], 0, 0, some 3⟩ 3 5 rfl rfl).1

/-- Claim C10: under the decode preconditions (header readable,
declared length within the buffer), if the buffer from the name
offset to its end holds no NUL byte the decode step panics (the
`unwrap` on the NUL scan aborts the process — no error value is
returned); and whenever such a NUL exists the panic branch is not
taken: the decode returns an entry. -/
theorem C10_nul_unwrap (d : DirSt)
    (hhdr : d.pos + offsetof_d_reclen + 1 < d.buf.length)
    (hassert : reclenAt d.buf d.pos ≤ d.buf.length - d.pos) :
    (firstNul (d.buf.drop (d.pos + offsetof_d_name)) = Option.none →
      (decodeStep d).res = .panic) ∧
    (∀ k, firstNul (d.buf.drop (d.pos + offsetof_d_name)) = some k →
      ∃ e, (decodeStep d).res = .ok e) := by
  constructor
  · intro hnul
    exact decode_no_nul_panic d hhdr hassert hnul
  · intro k hk
    exact ⟨_, by rw [decode_success_eq d k hk hassert]⟩

/-- Claim C10, witness: a 24-byte record whose name region has no NUL
anywhere in the buffer panics the decoder. -/
theorem C10_witness :
    (decodeStep ⟨noNulBuf, 0, 0, Option.none⟩).res = .panic :=
  (C10_nul_unwrap ⟨noNulBuf, 0, 0, Option.none⟩ (by decide) (by decide)).1
    (by decide)
